import Mathlib

/-!
Verification of the ABE-Base Query Normalization & Fuzzy Search
Orchestration Engine against its design specification.

Strings are embedded as `List Char` so that scanning and trimming can be
reasoned about by structural induction.  The repository ships only the
Next.js frontend (`src/frontend`); the backend engine itself (recognizer,
canonicalizer, planner, orchestrator, merger, suggester) is not part of
the source tree, so those components are modelled from the specification
text, while frontend behaviour (search bar submission, result rendering,
client defaults) is embedded from the TypeScript source.
-/

namespace ABE

/-- Strings embedded as lists of characters. -/
abbrev Str := List Char

/-! ### Identifier grammar: basic character classes and splitting -/

/-- A decimal digit, as tested by the grammar. -/
def isDigitChar (c : Char) : Bool := c.isDigit

/-- All characters of the string are decimal digits. -/
def allDigits (s : Str) : Bool := s.all isDigitChar

/-- Split a string at every occurrence of the delimiter character.
Always returns a non-empty list of (possibly empty) groups. -/
def splitOnChar (d : Char) : Str → List Str
  | [] => [[]]
  | c :: rest =>
    match splitOnChar d rest with
    | [] => [[c]]
    | g :: gs => if c = d then [] :: g :: gs else (c :: g) :: gs

/-- Recognition confidence of an identifier candidate (§3). -/
inductive Confidence where
  | high
  | low
deriving DecidableEq, Repr

/-- An identifier candidate produced by the Grammar Recognizer (§3):
the raw matched text, the extracted digit groups and the confidence. -/
structure IdentifierCandidate where
  rawText : Str
  groups : List Str
  confidence : Confidence
deriving DecidableEq, Repr

/-- Fixed group widths of the canonical grammar (country code, base
approval number, extension number, variant number), inferred from the
worked example of the spec `e13*1234*5678*00` (§3, §4.2, §9). -/
def groupWidths : List Nat := [2, 4, 4, 2]

/-- Total digit count of the fixed-width concatenated notation. -/
def concatDigitCount : Nat := 2 + 4 + 4 + 2

/-- A digit group is individually well-formed: 1-6 digits (§4.1). -/
def validGroup (g : Str) : Bool :=
  allDigits g && decide (1 ≤ g.length) && decide (g.length ≤ 6)

/-- The group-shape check of the grammar (§4.1): exactly four digit groups,
each of 1-6 digits, total digit count between 7 and 16. -/
def validGroups (gs : List Str) : Bool :=
  decide (gs.length = 4) && gs.all validGroup &&
    decide (7 ≤ (gs.map List.length).sum) &&
    decide ((gs.map List.length).sum ≤ 16)

/-- Modelled from the spec: the delimited branch of the Grammar
Recognizer (§4.1).  The body (input after the leading letter) is split
at one consistent delimiter; the split must produce exactly four valid
digit groups.  Delimited candidates carry High confidence. -/
def parseDelimited (d : Char) (body : Str) : Option IdentifierCandidate :=
  let gs := splitOnChar d body
  if validGroups gs then some ⟨body, gs, .high⟩ else none

/-- Modelled from the spec: the fully-concatenated branch of the
Grammar Recognizer (§4.1).  All characters after the leading letter are
digits; the digit string is split at the fixed group widths of the grammar
(2, 4, 4, 2) taken from the example of the spec.  Concatenated candidates
carry Low confidence. -/
def parseConcatenated (body : Str) : Option IdentifierCandidate :=
  if allDigits body && decide (body.length = concatDigitCount) then
    some ⟨body, [body.take 2, (body.drop 2).take 4,
                 ((body.drop 2).drop 4).take 4,
                 ((body.drop 2).drop 4).drop 4], .low⟩
  else none

/-- Modelled from the spec: the Grammar Recognizer (§4.1) restricted to
inputs that are one complete identifier (the greedy substring scan of
the full Recognizer is not modelled; the claims under verification only
exercise whole-identifier inputs).  A leading literal `e` (case
insensitive) is followed by four digit groups separated consistently by
asterisk, hyphen, single space, or no delimiter at all.  An empty
candidate list is a normal result, not an error (§4.1). -/
def recognize (raw : Str) : List IdentifierCandidate :=
  match raw with
  | [] => []
  | c :: body =>
    if c = 'e' ∨ c = 'E' then
      match parseDelimited '*' body with
      | some cand => [cand]
      | none =>
        match parseDelimited '-' body with
        | some cand => [cand]
        | none =>
          match parseDelimited ' ' body with
          | some cand => [cand]
          | none =>
            match parseConcatenated body with
            | some cand => [cand]
            | none => []
    else []

/-- A canonical identifier (§3): ordered numeric groups (country code,
base approval number, extension number, variant number); two canonical
identifiers are equal iff their group sequences are equal. -/
structure CanonicalIdentifier where
  country : Str
  baseNumber : Str
  extNumber : Str
  variantNumber : Str
deriving DecidableEq, Repr

/-- Left-pad a digit group with zeros to the expected width (§4.2);
groups already at or beyond the width are kept unchanged. -/
def leftPad (w : Nat) (g : Str) : Str := List.replicate (w - g.length) '0' ++ g

/-- Modelled from the spec: the Canonicalizer (§4.2).  Strips
delimiters (already done by group extraction), left-pads each group to
the width expectations of the grammar, and returns `none` (not an error)
when the candidate does not have the fixed 4-group shape. -/
def canonicalize (cand : IdentifierCandidate) : Option CanonicalIdentifier :=
  match cand.groups with
  | [g1, g2, g3, g4] =>
    some ⟨leftPad 2 g1, leftPad 4 g2, leftPad 4 g3, leftPad 2 g4⟩
  | _ => none

/-- The canonical rendering (§4.2): one fixed separator style, the
design picks `*`. -/
def renderCanonical (ci : CanonicalIdentifier) : Str :=
  'e' :: (ci.country ++ '*' :: (ci.baseNumber ++ '*' ::
    (ci.extNumber ++ '*' :: ci.variantNumber)))

/-- The canonical identifiers recognized in a raw query:
`canonicalize` after `recognize`, malformed candidates dropped (§4.2). -/
def canonicalsOf (raw : Str) : List CanonicalIdentifier :=
  (recognize raw).filterMap canonicalize

/-! ### Rendering the four accepted notations of one identifier -/

/-- The delimited rendering of four groups with a single delimiter. -/
def renderWith (d : Char) (g1 g2 g3 g4 : Str) : Str :=
  'e' :: (g1 ++ d :: (g2 ++ d :: (g3 ++ d :: g4)))

/-- The fully-concatenated rendering of four groups. -/
def renderConcat (g1 g2 g3 g4 : Str) : Str :=
  'e' :: (g1 ++ (g2 ++ (g3 ++ g4)))

/-! ### String trimming (ECMAScript `String.prototype.trim`) -/

/-- A whitespace character, as stripped by `trim`. -/
def wsChar (c : Char) : Bool := c.isWhitespace

/-- Embedded from the frontend source: JavaScript `s.trim()` removes
leading and trailing whitespace. -/
def jsTrim (s : Str) : Str :=
  ((s.dropWhile wsChar).reverse.dropWhile wsChar).reverse

/-! ### Result Merger/Ranker data model (§3, §4.5) -/

/-- The sub-query strategy that produced a hit (§3). -/
inductive SourceStrategy where
  | exactIdentifier
  | fuzzyText
deriving DecidableEq, Repr

/-- A per-sub-query result (§3): document identity, display data, a raw
score in [0,1], the producing strategy, the identifiers found in the
own metadata of the document, and the recognition confidence carried through
from the candidate (used by the Merger as a secondary tie-break, §4.5). -/
structure MatchHit where
  documentId : ℕ
  title : Str
  snippet : Option Str
  rawScore : ℚ
  sourceStrategy : SourceStrategy
  identifiersFound : List CanonicalIdentifier
  confidence : Confidence
deriving DecidableEq, Repr

/-- Lexicographic key of a canonical identifier: its ordered group
sequence (§3: equality is group-sequence equality). -/
abbrev CanonKey := Str ×ₗ (Str ×ₗ (Str ×ₗ Str))

def canonKey (ci : CanonicalIdentifier) : CanonKey :=
  toLex (ci.country, toLex (ci.baseNumber, toLex (ci.extNumber, ci.variantNumber)))

/-- Strategy precedence for deduplication tie-breaking (§4.5):
ExactIdentifier beats FuzzyText, so it gets the larger rank. -/
def stratRank : SourceStrategy → ℕ
  | .exactIdentifier => 1
  | .fuzzyText => 0

/-- Candidate-confidence tie-break rank (§4.5): High beats Low. -/
def confRank : Confidence → ℕ
  | .high => 1
  | .low => 0

/-- Lexicographic key of an optional snippet (absent before present). -/
def snippetKey : Option Str → ℕ ×ₗ Str
  | none => toLex (0, [])
  | some s => toLex (1, s)

/-- The total deduplication key of a hit (§4.5): raw score first, then
strategy precedence, then candidate confidence; the remaining payload
fields break any residual tie deterministically so that keeping the
key-maximal hit of a documentId group is order-independent. -/
abbrev HitKey := ℚ ×ₗ (ℕ ×ₗ (ℕ ×ₗ (Str ×ₗ ((ℕ ×ₗ Str) ×ₗ List CanonKey))))

def hitKey (h : MatchHit) : HitKey :=
  toLex (h.rawScore, toLex (stratRank h.sourceStrategy,
    toLex (confRank h.confidence, toLex (h.title,
      toLex (snippetKey h.snippet, h.identifiersFound.map canonKey)))))

/-- Of two hits for the same document, keep the one with the higher
raw score, ties broken by strategy precedence and then confidence
(§4.5); the comparison is by the total key `hitKey`. -/
def maxHit (h₁ h₂ : MatchHit) : MatchHit :=
  if hitKey h₁ < hitKey h₂ then h₂ else h₁

/-- One fold step of per-document deduplication: fold a hit into the
best-so-far hit of document `d`. -/
def bestStep (d : ℕ) (h : MatchHit) (acc : Option MatchHit) : Option MatchHit :=
  if h.documentId = d then some (acc.elim h (fun h' => maxHit h h')) else acc

/-- The retained hit for document `d`: the key-maximal hit among the
input hits carrying that documentId (§4.5), `none` if there is none. -/
def bestFor (l : List MatchHit) (d : ℕ) : Option MatchHit :=
  l.foldr (bestStep d) none

/-- The largest documentId occurring in the hits (0 if none). -/
def maxDocId (l : List MatchHit) : ℕ :=
  l.foldr (fun h m => max h.documentId m) 0

/-- The deduplicated hits: for each document identity present, its
retained key-maximal hit (§4.5).  Enumerating documentIds in increasing
order makes this list a function of the input multiset alone. -/
def dedupedHits (l : List MatchHit) : List MatchHit :=
  (List.range (maxDocId l + 1)).filterMap (bestFor l)

/-- Output-order strategy rank (§3): ExactIdentifier sorts before
FuzzyText. -/
def sortStratRank : SourceStrategy → ℕ
  | .exactIdentifier => 0
  | .fuzzyText => 1

/-- The output sort key (§3): rawScore descending, then ExactIdentifier
before FuzzyText, then documentId ascending. -/
def mergeKey (h : MatchHit) : ℚ ×ₗ (ℕ ×ₗ ℕ) :=
  toLex (-h.rawScore, toLex (sortStratRank h.sourceStrategy, h.documentId))

/-- The output ordering relation of `results` (§3). -/
def mergeLe (h₁ h₂ : MatchHit) : Prop := mergeKey h₁ ≤ mergeKey h₂

instance : DecidableRel mergeLe :=
  fun h₁ h₂ => inferInstanceAs (Decidable (mergeKey h₁ ≤ mergeKey h₂))

/-- The deduplicated hits sorted per the §3 ordering invariant. -/
def mergeResults (l : List MatchHit) : List MatchHit :=
  List.insertionSort mergeLe (dedupedHits l)

/-- Ordering of canonical identifiers by their group sequences. -/
def canonLe (a b : CanonicalIdentifier) : Prop := canonKey a ≤ canonKey b

instance : DecidableRel canonLe :=
  fun a b => inferInstanceAs (Decidable (canonKey a ≤ canonKey b))

/-- The set of recognized identifiers, represented canonically as a
sorted duplicate-free list so that it is a function of its members. -/
def sortIdentifiers (ids : List CanonicalIdentifier) : List CanonicalIdentifier :=
  List.insertionSort canonLe ids.dedup

/-- Union of the recognized terms of the QueryPlan with all
`identifiersFound` across all hits (§4.5). -/
def collectIdentifiers (planIds : List CanonicalIdentifier)
    (hits : List MatchHit) : List CanonicalIdentifier :=
  sortIdentifiers (planIds ++ hits.flatMap (fun h => h.identifiersFound))

/-- The response of the engine (§3): ordered deduplicated results, the set
of canonical identifiers recognized, and an echo of the raw query. -/
structure SearchResponse where
  results : List MatchHit
  identifiersRecognized : List CanonicalIdentifier
  queryEcho : Str
deriving DecidableEq, Repr

/-- Modelled from the spec: the Result Merger/Ranker (§4.5).  Groups
hits by documentId keeping the key-maximal hit of each group, sorts the
deduplicated hits per the §3 invariant, and unions all identifiers
found across hits with the recognized terms of the plan. -/
def merge (hits : List MatchHit) (planIds : List CanonicalIdentifier)
    (queryEcho : Str) : SearchResponse :=
  ⟨mergeResults hits, collectIdentifiers planIds hits, queryEcho⟩

/-! ### Query Planner and Fuzzy Match Orchestrator (§4.3, §4.4, §6) -/

/-- Classification of a query (§3). -/
inductive QueryPlanKind where
  | identifierOnly
  | freeTextOnly
  | mixed
deriving DecidableEq, Repr

/-- The per-request query plan (§3): derived once, immutable. -/
structure QueryPlan where
  kind : QueryPlanKind
  identifierTerms : List CanonicalIdentifier
  freeTextTerm : Option Str
deriving DecidableEq, Repr

/-- Modelled from the spec: the Query Planner (§4.3).  In the
whole-string recognizer model a recognized identifier consumes the
entire raw input, so the remaining text of an identifier query is
empty and `plan` emits IdentifierOnly or FreeTextOnly; `execute` still
implements the Mixed branch of §4.4. -/
def plan (raw : Str) (canonicals : List CanonicalIdentifier) : QueryPlan :=
  match canonicals with
  | [] => ⟨.freeTextOnly, [], some (jsTrim raw)⟩
  | _ => ⟨.identifierOnly, canonicals, none⟩

/-- An exact-lookup result row (§6 external interface). -/
structure ExactDoc where
  documentId : ℕ
  title : Str
  created : Str
deriving DecidableEq, Repr

/-- A fuzzy-search result row (§6 external interface). -/
structure FuzzyDoc where
  documentId : ℕ
  title : Str
  created : Str
  snippet : Option Str
  score : ℚ
deriving DecidableEq, Repr

/-- The consumed backend capabilities (§6); `none` models a failed
backend call (failure policy of §4.4). -/
structure Backend where
  exactLookup : CanonicalIdentifier → Option (List ExactDoc)
  fuzzySearch : Str → ℕ → Option (List FuzzyDoc)

/-- Error taxonomy surfaced to the caller (§7). -/
inductive SearchFailure where
  | searchBackendUnavailable
  | queryTooLong
deriving DecidableEq, Repr

/-- An exact-lookup row becomes a hit tagged ExactIdentifier with
rawScore = 1 (§4.4: a canonical identifier match is always maximal
confidence). -/
def toExactHit (ci : CanonicalIdentifier) (d : ExactDoc) : MatchHit :=
  ⟨d.documentId, d.title, none, 1, .exactIdentifier, [ci], .high⟩

/-- A fuzzy-search row becomes a hit tagged FuzzyText carrying the
score reported by the backend. -/
def toFuzzyHit (d : FuzzyDoc) : MatchHit :=
  ⟨d.documentId, d.title, d.snippet, d.score, .fuzzyText, [], .low⟩

/-- One exact sub-query, its results truncated to the per-call cap
(§4.4: the cap bounds backend load per call). -/
def exactCall (be : Backend) (cap : ℕ) (ci : CanonicalIdentifier) :
    Option (List MatchHit) :=
  (be.exactLookup ci).map (fun ds => (ds.take cap).map (toExactHit ci))

/-- One fuzzy sub-query, the cap passed to the backend and the results
truncated to it (§4.4). -/
def fuzzyCall (be : Backend) (cap : ℕ) (text : Str) : Option (List MatchHit) :=
  (be.fuzzySearch text cap).map (fun ds => (ds.take cap).map toFuzzyHit)

/-- Modelled from the spec: the sub-queries issued for a plan (§4.4):
IdentifierOnly calls `exactLookup` per term in term order; FreeTextOnly
calls `fuzzySearch` once with the full term; Mixed issues both. -/
def callResults (qp : QueryPlan) (cap : ℕ) (be : Backend) :
    List (Option (List MatchHit)) :=
  match qp.kind with
  | .identifierOnly => qp.identifierTerms.map (exactCall be cap)
  | .freeTextOnly => [fuzzyCall be cap (qp.freeTextTerm.getD [])]
  | .mixed =>
    qp.identifierTerms.map (exactCall be cap) ++
      [fuzzyCall be cap (qp.freeTextTerm.getD [])]

/-- The number of sub-queries a plan issues. -/
def subQueryCount (qp : QueryPlan) : ℕ :=
  match qp.kind with
  | .identifierOnly => qp.identifierTerms.length
  | .freeTextOnly => 1
  | .mixed => qp.identifierTerms.length + 1

/-- Modelled from the spec: the Fuzzy Match Orchestrator (§4.4).
If every issued call failed the request fails with
SearchBackendUnavailable; otherwise the hits of the successful calls are
returned (partial results when some calls failed). -/
def execute (qp : QueryPlan) (cap : ℕ) (be : Backend) :
    Except SearchFailure (List MatchHit) :=
  let rs := callResults qp cap be
  if rs ≠ [] ∧ rs.all Option.isNone then .error .searchBackendUnavailable
  else .ok (rs.flatMap (fun r => r.getD []))

/-- Explicit engine configuration (§9): maximum raw query length
(§3, e.g. 500), per-call result cap (§4.4, default 50), suggestion
limit (§4.6, default 10). -/
structure EngineConfig where
  maxQueryLength : ℕ
  resultCap : ℕ
  suggestionLimit : ℕ
deriving DecidableEq, Repr

/-- The defaults named by the spec (500 / 50 / 10). -/
def defaultConfig : EngineConfig := ⟨500, 50, 10⟩

/-- The unguarded search pipeline: recognize, canonicalize, plan,
execute, merge (§2 data flow). -/
def searchCore (cfg : EngineConfig) (be : Backend) (raw : Str) :
    Except SearchFailure SearchResponse :=
  let canonicals := canonicalsOf raw
  let qp := plan raw canonicals
  match execute qp cfg.resultCap be with
  | .error e => .error e
  | .ok hits => .ok (merge hits canonicals raw)

/-- Modelled from the spec: the exposed `search` contract (§6, §7).
A raw input exceeding the configured maximum length is rejected with
QueryTooLong before recognition runs. -/
def search (cfg : EngineConfig) (be : Backend) (raw : Str) :
    Except SearchFailure SearchResponse :=
  if cfg.maxQueryLength < raw.length then .error .queryTooLong
  else searchCore cfg be raw

/-! ### Suggestion Generator (§4.6) -/

/-- Case folding used for case-insensitive deduplication. -/
def lowerStr (s : Str) : Str := s.map Char.toLower

/-- Remove exact duplicates case-insensitively, keeping first
occurrences; `seen` accumulates the folded keys already emitted. -/
def dedupCI (seen : List Str) : List Str → List Str
  | [] => []
  | s :: rest =>
    if lowerStr s ∈ seen then dedupCI seen rest
    else s :: dedupCI (lowerStr s :: seen) rest

/-- The text sent to the backend for a suggestion prefix (§4.6): a
detected partial identifier shape is canonicalized, otherwise the
prefix is treated as a free-text stem. -/
def suggestText (pre : Str) : Str :=
  match canonicalsOf pre with
  | ci :: _ => renderCanonical ci
  | [] => jsTrim pre

/-- Modelled from the spec: the Suggestion Generator (§4.6), active
only when the prefix has at least 2 characters; results are ranked by
the backend, deduplicated case-insensitively and truncated to `limit`.
The completion payload is abstracted to titles of the matched documents;
only gating, truncation and deduplication are modelled precisely. -/
def suggest (be : Backend) (pre : Str) (limit : ℕ) :
    List Str :=
  if pre.length < 2 then []
  else
    (dedupCI [] (((be.fuzzySearch (suggestText pre) limit).getD []).map
      (fun d => d.title))).take limit

/-- A backend whose calls all succeed with zero rows. -/
def emptyBackend : Backend := ⟨fun _ => some [], fun _ _ => some []⟩

/-! ### Frontend embeddings (from `src/frontend/src`) -/

/-- Embedded from `lib/api.ts`: `searchDocuments(query, limit = 50)` —
the limit requested from the backend when none is given explicitly. -/
def searchDocumentsLimit (limit : Option ℕ) : ℕ := limit.getD 50

/-- Embedded from `lib/api.ts`:
`getSearchSuggestions(query, limit = 10)`. -/
def getSearchSuggestionsLimit (limit : Option ℕ) : ℕ := limit.getD 10

/-- Embedded from `components/SearchBar.tsx`: the suggestions query is
issued only under `enabled: query.length >= 2`. -/
def suggestionsEnabled (query : Str) : Bool := decide (2 ≤ query.length)

/-- Embedded from `components/SearchBar.tsx` (`handleSearch`): submit
`searchQuery.trim()` only when it is non-empty (truthy); otherwise no
search fires and no state changes (`none`). -/
def handleSearch (query : Str) : Option Str :=
  let t := jsTrim query
  if t.isEmpty then none else some t

/-- Embedded from `types/index.ts`: the SearchResult row of the frontend. -/
structure SearchResult where
  doc_id : Str
  title : Str
  created : Str
  modified : Str
  snippet : Option Str
  enumbers : List Str
  score : Option ℚ
deriving DecidableEq, Repr

/-- The four mutually exclusive renderings of the results pane. -/
inductive SearchView where
  | loadingView
  | errorView (detail : Str)
  | emptyView
  | resultsView (rs : List SearchResult)
deriving DecidableEq, Repr

/-- Embedded from `components/SearchResults.tsx`: loading state first;
then a truthy error renders the error panel with its detail message;
otherwise zero results render the distinct "Keine Ergebnisse gefunden"
empty state and a non-empty list renders the result cards. -/
def renderSearchResults (isLoading : Bool) (error : Option Str)
    (results : List SearchResult) : SearchView :=
  if isLoading then .loadingView
  else
    match error with
    | some detail => .errorView detail
    | none => if results.isEmpty then .emptyView else .resultsView results


/-! ### Lemmas: splitting and digits -/

theorem splitOnChar_ne_nil (d : Char) (s : Str) : splitOnChar d s ≠ [] := by
  induction s with
  | nil => simp [splitOnChar]
  | cons c rest ih =>
    simp only [splitOnChar]
    rcases hsp : splitOnChar d rest with _ | ⟨g, gs⟩
    · simp
    · by_cases hc : c = d <;> simp [hc]

theorem splitOnChar_of_not_mem {d : Char} {s : Str} (h : d ∉ s) :
    splitOnChar d s = [s] := by
  induction s with
  | nil => rfl
  | cons c rest ih =>
    have hc : ¬ c = d := fun e => h (e ▸ List.mem_cons_self c rest)
    have hr : d ∉ rest := fun m => h (List.mem_cons_of_mem _ m)
    simp [splitOnChar, ih hr, hc]

theorem splitOnChar_append {d : Char} {s t : Str} (h : d ∉ s) :
    splitOnChar d (s ++ d :: t) = s :: splitOnChar d t := by
  induction s with
  | nil =>
    simp only [List.nil_append, splitOnChar]
    rcases hsp : splitOnChar d t with _ | ⟨g, gs⟩
    · exact absurd hsp (splitOnChar_ne_nil d t)
    · simp
  | cons c s ih =>
    have hc : ¬ c = d := fun e => h (e ▸ List.mem_cons_self c s)
    have hs : d ∉ s := fun m => h (List.mem_cons_of_mem _ m)
    simp only [List.cons_append, splitOnChar, List.append_eq]
    rw [ih hs]
    simp [hc]

theorem not_mem_of_allDigits {g : Str} {c : Char} (hg : allDigits g = true)
    (hc : c.isDigit = false) : c ∉ g := by
  intro hmem
  have hd := List.all_eq_true.mp hg c hmem
  simp [isDigitChar, hc] at hd

theorem leftPad_of_length {w : ℕ} {g : Str} (h : g.length = w) :
    leftPad w g = g := by
  simp [leftPad, h]

theorem validGroups_of (g1 g2 g3 g4 : Str)
    (hd1 : allDigits g1 = true) (hd2 : allDigits g2 = true)
    (hd3 : allDigits g3 = true) (hd4 : allDigits g4 = true)
    (hl1 : g1.length = 2) (hl2 : g2.length = 4)
    (hl3 : g3.length = 4) (hl4 : g4.length = 2) :
    validGroups [g1, g2, g3, g4] = true := by
  simp [validGroups, validGroup, hd1, hd2, hd3, hd4, hl1, hl2, hl3, hl4]

theorem parseDelimited_of_not_mem {d : Char} {body : Str} (h : d ∉ body) :
    parseDelimited d body = none := by
  simp [parseDelimited, splitOnChar_of_not_mem h, validGroups]

theorem not_mem_bodyWith {c d : Char} {g1 g2 g3 g4 : Str} (hcd : c ≠ d)
    (h1 : c ∉ g1) (h2 : c ∉ g2) (h3 : c ∉ g3) (h4 : c ∉ g4) :
    c ∉ g1 ++ d :: (g2 ++ d :: (g3 ++ d :: g4)) := by
  intro hm
  simp only [List.mem_append, List.mem_cons] at hm
  tauto

theorem parseDelimited_bodyWith {d : Char} {g1 g2 g3 g4 : Str}
    (h1 : d ∉ g1) (h2 : d ∉ g2) (h3 : d ∉ g3) (h4 : d ∉ g4)
    (hv : validGroups [g1, g2, g3, g4] = true) :
    parseDelimited d (g1 ++ d :: (g2 ++ d :: (g3 ++ d :: g4))) =
      some ⟨g1 ++ d :: (g2 ++ d :: (g3 ++ d :: g4)), [g1, g2, g3, g4], .high⟩ := by
  have hsp : splitOnChar d (g1 ++ d :: (g2 ++ d :: (g3 ++ d :: g4))) =
      [g1, g2, g3, g4] := by
    rw [splitOnChar_append h1, splitOnChar_append h2, splitOnChar_append h3,
      splitOnChar_of_not_mem h4]
  simp [parseDelimited, hsp, hv]


theorem allDigits_append {s t : Str} :
    allDigits (s ++ t) = (allDigits s && allDigits t) := by
  simp [allDigits]

theorem parseConcatenated_groups (g1 g2 g3 g4 : Str)
    (hd1 : allDigits g1 = true) (hd2 : allDigits g2 = true)
    (hd3 : allDigits g3 = true) (hd4 : allDigits g4 = true)
    (hl1 : g1.length = 2) (hl2 : g2.length = 4)
    (hl3 : g3.length = 4) (hl4 : g4.length = 2) :
    parseConcatenated (g1 ++ (g2 ++ (g3 ++ g4))) =
      some ⟨g1 ++ (g2 ++ (g3 ++ g4)), [g1, g2, g3, g4], .low⟩ := by
  have hall : allDigits (g1 ++ (g2 ++ (g3 ++ g4))) = true := by
    simp [allDigits_append, hd1, hd2, hd3, hd4]
  have hlen : (g1 ++ (g2 ++ (g3 ++ g4))).length = concatDigitCount := by
    simp [hl1, hl2, hl3, hl4, concatDigitCount]
  have e1 : (g1 ++ (g2 ++ (g3 ++ g4))).take 2 = g1 := List.take_left' hl1
  have e2 : (g1 ++ (g2 ++ (g3 ++ g4))).drop 2 = g2 ++ (g3 ++ g4) :=
    List.drop_left' hl1
  have e3 : (g2 ++ (g3 ++ g4)).take 4 = g2 := List.take_left' hl2
  have e4 : (g2 ++ (g3 ++ g4)).drop 4 = g3 ++ g4 := List.drop_left' hl2
  have e5 : (g3 ++ g4).take 4 = g3 := List.take_left' hl3
  have e6 : (g3 ++ g4).drop 4 = g4 := List.drop_left' hl3
  simp [parseConcatenated, hall, hlen, e1, e2, e3, e4, e5, e6]


theorem recognize_cons_e (body : Str) :
    recognize ('e' :: body) =
      (match parseDelimited '*' body with
      | some cand => [cand]
      | none =>
        match parseDelimited '-' body with
        | some cand => [cand]
        | none =>
          match parseDelimited ' ' body with
          | some cand => [cand]
          | none =>
            match parseConcatenated body with
            | some cand => [cand]
            | none => []) := by
  simp [recognize]


/-- C1: For every logical approval identifier (four digit groups of the
fixed grammar widths), applying canonicalize after recognize to any of
the four accepted delimiter notations — asterisk-separated,
space-separated, hyphen-separated, fully concatenated — yields one
identical CanonicalIdentifier. -/
theorem c1_canonicalization_agrees_across_notations
    (g1 g2 g3 g4 : Str)
    (hd1 : allDigits g1 = true) (hd2 : allDigits g2 = true)
    (hd3 : allDigits g3 = true) (hd4 : allDigits g4 = true)
    (hl1 : g1.length = 2) (hl2 : g2.length = 4)
    (hl3 : g3.length = 4) (hl4 : g4.length = 2) :
    canonicalsOf (renderWith '*' g1 g2 g3 g4) = [⟨g1, g2, g3, g4⟩] ∧
    canonicalsOf (renderWith ' ' g1 g2 g3 g4) = [⟨g1, g2, g3, g4⟩] ∧
    canonicalsOf (renderWith '-' g1 g2 g3 g4) = [⟨g1, g2, g3, g4⟩] ∧
    canonicalsOf (renderConcat g1 g2 g3 g4) = [⟨g1, g2, g3, g4⟩] := by
  have hv := validGroups_of g1 g2 g3 g4 hd1 hd2 hd3 hd4 hl1 hl2 hl3 hl4
  have hS1 : ('*' : Char) ∉ g1 := not_mem_of_allDigits hd1 (by decide)
  have hS2 : ('*' : Char) ∉ g2 := not_mem_of_allDigits hd2 (by decide)
  have hS3 : ('*' : Char) ∉ g3 := not_mem_of_allDigits hd3 (by decide)
  have hS4 : ('*' : Char) ∉ g4 := not_mem_of_allDigits hd4 (by decide)
  have hH1 : ('-' : Char) ∉ g1 := not_mem_of_allDigits hd1 (by decide)
  have hH2 : ('-' : Char) ∉ g2 := not_mem_of_allDigits hd2 (by decide)
  have hH3 : ('-' : Char) ∉ g3 := not_mem_of_allDigits hd3 (by decide)
  have hH4 : ('-' : Char) ∉ g4 := not_mem_of_allDigits hd4 (by decide)
  have hB1 : (' ' : Char) ∉ g1 := not_mem_of_allDigits hd1 (by decide)
  have hB2 : (' ' : Char) ∉ g2 := not_mem_of_allDigits hd2 (by decide)
  have hB3 : (' ' : Char) ∉ g3 := not_mem_of_allDigits hd3 (by decide)
  have hB4 : (' ' : Char) ∉ g4 := not_mem_of_allDigits hd4 (by decide)
  have hcan : ∀ (raw : Str) (cf : Confidence),
      canonicalize ⟨raw, [g1, g2, g3, g4], cf⟩ = some ⟨g1, g2, g3, g4⟩ := by
    intro raw cf
    simp [canonicalize, leftPad_of_length hl1, leftPad_of_length hl2,
      leftPad_of_length hl3, leftPad_of_length hl4]
  have hcm : ∀ c : Char, c.isDigit = false → c ∉ g1 ++ (g2 ++ (g3 ++ g4)) := by
    intro c hc hm
    simp only [List.mem_append] at hm
    rcases hm with h | h | h | h
    · exact not_mem_of_allDigits hd1 hc h
    · exact not_mem_of_allDigits hd2 hc h
    · exact not_mem_of_allDigits hd3 hc h
    · exact not_mem_of_allDigits hd4 hc h
  refine ⟨?_, ?_, ?_, ?_⟩
  · simp [canonicalsOf, renderWith, recognize_cons_e,
      parseDelimited_bodyWith hS1 hS2 hS3 hS4 hv, hcan]
  · simp [canonicalsOf, renderWith, recognize_cons_e,
      parseDelimited_of_not_mem
        (not_mem_bodyWith (show ('*' : Char) ≠ ' ' by decide) hS1 hS2 hS3 hS4),
      parseDelimited_of_not_mem
        (not_mem_bodyWith (show ('-' : Char) ≠ ' ' by decide) hH1 hH2 hH3 hH4),
      parseDelimited_bodyWith hB1 hB2 hB3 hB4 hv, hcan]
  · simp [canonicalsOf, renderWith, recognize_cons_e,
      parseDelimited_of_not_mem
        (not_mem_bodyWith (show ('*' : Char) ≠ '-' by decide) hS1 hS2 hS3 hS4),
      parseDelimited_bodyWith hH1 hH2 hH3 hH4 hv, hcan]
  · simp [canonicalsOf, renderConcat, recognize_cons_e,
      parseDelimited_of_not_mem (hcm '*' (by decide)),
      parseDelimited_of_not_mem (hcm '-' (by decide)),
      parseDelimited_of_not_mem (hcm ' ' (by decide)),
      parseConcatenated_groups g1 g2 g3 g4 hd1 hd2 hd3 hd4 hl1 hl2 hl3 hl4,
      hcan]


/-- Witness for C1 at the worked example of the spec: the four strings
e13*1234*5678*00, e13 1234 5678 00, e13-1234-5678-00 and e131234567800
all canonicalize to the same value. -/
theorem c1_canonicalization_agrees_witness :
    canonicalsOf (renderWith '*' ['1', '3'] ['1', '2', '3', '4']
        ['5', '6', '7', '8'] ['0', '0']) =
      [⟨['1', '3'], ['1', '2', '3', '4'], ['5', '6', '7', '8'], ['0', '0']⟩] ∧
    canonicalsOf (renderWith ' ' ['1', '3'] ['1', '2', '3', '4']
        ['5', '6', '7', '8'] ['0', '0']) =
      [⟨['1', '3'], ['1', '2', '3', '4'], ['5', '6', '7', '8'], ['0', '0']⟩] ∧
    canonicalsOf (renderWith '-' ['1', '3'] ['1', '2', '3', '4']
        ['5', '6', '7', '8'] ['0', '0']) =
      [⟨['1', '3'], ['1', '2', '3', '4'], ['5', '6', '7', '8'], ['0', '0']⟩] ∧
    canonicalsOf (renderConcat ['1', '3'] ['1', '2', '3', '4']
        ['5', '6', '7', '8'] ['0', '0']) =
      [⟨['1', '3'], ['1', '2', '3', '4'], ['5', '6', '7', '8'], ['0', '0']⟩] :=
  c1_canonicalization_agrees_across_notations
    ['1', '3'] ['1', '2', '3', '4'] ['5', '6', '7', '8'] ['0', '0']
    (by decide) (by decide) (by decide) (by decide)
    (by decide) (by decide) (by decide) (by decide)


/-! ### Lemmas: merger keys and deduplication -/

theorem canonKey_injective : Function.Injective canonKey := by
  intro a b h
  cases a
  cases b
  simp only [canonKey, toLex_inj, Prod.mk.injEq] at h
  simp [h.1, h.2.1, h.2.2.1, h.2.2.2]

theorem stratRank_injective {s₁ s₂ : SourceStrategy}
    (h : stratRank s₁ = stratRank s₂) : s₁ = s₂ := by
  cases s₁ <;> cases s₂ <;> simp_all [stratRank]

theorem confRank_injective {c₁ c₂ : Confidence}
    (h : confRank c₁ = confRank c₂) : c₁ = c₂ := by
  cases c₁ <;> cases c₂ <;> simp_all [confRank]

theorem snippetKey_injective {o₁ o₂ : Option Str}
    (h : snippetKey o₁ = snippetKey o₂) : o₁ = o₂ := by
  cases o₁ <;> cases o₂ <;> simp_all [snippetKey, toLex_inj]

theorem hitKey_inj {h₁ h₂ : MatchHit} (hd : h₁.documentId = h₂.documentId)
    (hk : hitKey h₁ = hitKey h₂) : h₁ = h₂ := by
  cases h₁
  cases h₂
  simp only [hitKey, toLex_inj, Prod.mk.injEq] at hk
  obtain ⟨hs, hr, hc, ht, hsn, hid⟩ := hk
  simp only at hd
  simp [hd, hs, ht, stratRank_injective hr, confRank_injective hc,
    snippetKey_injective hsn, List.map_injective_iff.mpr canonKey_injective hid]

theorem maxHit_eq_or (h₁ h₂ : MatchHit) :
    maxHit h₁ h₂ = h₁ ∨ maxHit h₁ h₂ = h₂ := by
  unfold maxHit
  split <;> simp

theorem hitKey_le_maxHit_left (h₁ h₂ : MatchHit) :
    hitKey h₁ ≤ hitKey (maxHit h₁ h₂) := by
  unfold maxHit
  split
  · exact le_of_lt ‹_›
  · exact le_refl _

theorem hitKey_le_maxHit_right (h₁ h₂ : MatchHit) :
    hitKey h₂ ≤ hitKey (maxHit h₁ h₂) := by
  unfold maxHit
  split
  · exact le_refl _
  · exact le_of_not_lt ‹_›

theorem maxHit_comm {h₁ h₂ : MatchHit} (hd : h₁.documentId = h₂.documentId) :
    maxHit h₁ h₂ = maxHit h₂ h₁ := by
  unfold maxHit
  rcases lt_trichotomy (hitKey h₁) (hitKey h₂) with h | h | h
  · rw [if_pos h, if_neg (asymm h)]
  · exact (hitKey_inj hd h) ▸ rfl
  · rw [if_neg (asymm h), if_pos h]

theorem maxHit_left_comm {a b : MatchHit} (hd : a.documentId = b.documentId)
    (x : MatchHit) : maxHit a (maxHit b x) = maxHit b (maxHit a x) := by
  by_cases c1 : hitKey b < hitKey x
  · by_cases c2 : hitKey a < hitKey x
    · simp [maxHit, c1, c2]
    · have hba : hitKey b < hitKey a := lt_of_lt_of_le c1 (le_of_not_lt c2)
      simp [maxHit, c1, c2, asymm hba, hba]
  · by_cases c3 : hitKey a < hitKey b
    · by_cases c2 : hitKey a < hitKey x <;>
        simp [maxHit, c1, c2, c3, asymm c3]
    · by_cases c4 : hitKey b < hitKey a
      · have hax : ¬ hitKey a < hitKey x :=
          fun h => c3 (lt_of_lt_of_le h (le_of_not_lt c1))
        simp [maxHit, c1, c3, c4, hax]
      · have hab : a = b :=
          hitKey_inj hd (le_antisymm (le_of_not_lt c4) (le_of_not_lt c3))
        subst hab
        rfl


theorem bestStep_leftComm (d : ℕ) (a b : MatchHit) (acc : Option MatchHit) :
    bestStep d a (bestStep d b acc) = bestStep d b (bestStep d a acc) := by
  by_cases ha : a.documentId = d <;> by_cases hb : b.documentId = d <;>
    simp [bestStep, ha, hb]
  cases acc with
  | none => exact maxHit_comm (ha.trans hb.symm)
  | some x => exact maxHit_left_comm (ha.trans hb.symm) x

theorem bestFor_perm {l₁ l₂ : List MatchHit} (p : l₁.Perm l₂) (d : ℕ) :
    bestFor l₁ d = bestFor l₂ d := by
  have : LeftCommutative (bestStep d) := ⟨bestStep_leftComm d⟩
  exact List.Perm.foldr_eq p none

theorem maxDocId_perm {l₁ l₂ : List MatchHit} (p : l₁.Perm l₂) :
    maxDocId l₁ = maxDocId l₂ := by
  have : LeftCommutative (fun (h : MatchHit) (m : ℕ) => max h.documentId m) :=
    ⟨fun a b m => max_left_comm a.documentId b.documentId m⟩
  exact List.Perm.foldr_eq p 0

theorem dedupedHits_perm {l₁ l₂ : List MatchHit} (p : l₁.Perm l₂) :
    dedupedHits l₁ = dedupedHits l₂ := by
  have hbf : bestFor l₁ = bestFor l₂ := funext (bestFor_perm p)
  unfold dedupedHits
  rw [maxDocId_perm p, hbf]


instance : IsTotal CanonicalIdentifier canonLe :=
  ⟨fun a b => le_total (canonKey a) (canonKey b)⟩

instance : IsTrans CanonicalIdentifier canonLe :=
  ⟨fun _ _ _ h₁ h₂ => le_trans h₁ h₂⟩

instance : IsAntisymm CanonicalIdentifier canonLe :=
  ⟨fun _ _ h₁ h₂ => canonKey_injective (le_antisymm h₁ h₂)⟩

instance : IsTotal MatchHit mergeLe :=
  ⟨fun a b => le_total (mergeKey a) (mergeKey b)⟩

instance : IsTrans MatchHit mergeLe :=
  ⟨fun _ _ _ h₁ h₂ => le_trans h₁ h₂⟩

theorem sortIdentifiers_perm_eq {l₁ l₂ : List CanonicalIdentifier}
    (p : l₁.Perm l₂) : sortIdentifiers l₁ = sortIdentifiers l₂ := by
  unfold sortIdentifiers
  refine List.eq_of_perm_of_sorted (r := canonLe) ?_ ?_ ?_
  · exact ((List.perm_insertionSort canonLe l₁.dedup).trans p.dedup).trans
      (List.perm_insertionSort canonLe l₂.dedup).symm
  · exact List.sorted_insertionSort canonLe l₁.dedup
  · exact List.sorted_insertionSort canonLe l₂.dedup

theorem collectIdentifiers_perm {hits₁ hits₂ : List MatchHit}
    (p : hits₁.Perm hits₂) (planIds : List CanonicalIdentifier) :
    collectIdentifiers planIds hits₁ = collectIdentifiers planIds hits₂ := by
  unfold collectIdentifiers
  exact sortIdentifiers_perm_eq
    ((p.flatMap_right (fun h => h.identifiersFound)).append_left planIds)


theorem bestFor_eq_none {l : List MatchHit} {d : ℕ}
    (hb : bestFor l d = none) : ∀ h' ∈ l, h'.documentId ≠ d := by
  induction l with
  | nil => simp
  | cons a l ih =>
    simp only [bestFor, List.foldr_cons] at hb ih
    by_cases ha : a.documentId = d
    · simp only [bestStep, ha, if_pos rfl] at hb
      cases l.foldr (bestStep d) none <;> simp [Option.elim] at hb
    · simp only [bestStep, ha, if_neg ha] at hb
      intro h' hm
      rcases List.mem_cons.mp hm with rfl | hm
      · exact ha
      · exact ih hb h' hm


theorem bestFor_spec {l : List MatchHit} {d : ℕ} {h : MatchHit}
    (hb : bestFor l d = some h) :
    h ∈ l ∧ h.documentId = d ∧
      ∀ h' ∈ l, h'.documentId = d → hitKey h' ≤ hitKey h := by
  induction l generalizing h with
  | nil => simp [bestFor] at hb
  | cons a l ih =>
    simp only [bestFor, List.foldr_cons] at hb ih
    by_cases ha : a.documentId = d
    · rcases hf : l.foldr (bestStep d) none with _ | x
      · rw [hf] at hb
        simp only [bestStep, ha, eq_self_iff_true, ite_true, Option.elim,
          Option.some.injEq] at hb
        subst hb
        refine ⟨List.mem_cons_self _ _, ha, ?_⟩
        intro h' hm hd'
        rcases List.mem_cons.mp hm with rfl | hm
        · exact le_refl _
        · exact absurd hd' (bestFor_eq_none hf h' hm)
      · rw [hf] at hb
        simp only [bestStep, ha, eq_self_iff_true, ite_true, Option.elim,
          Option.some.injEq] at hb
        obtain ⟨hxm, hxd, hxmax⟩ := ih hf
        subst hb
        refine ⟨?_, ?_, ?_⟩
        · rcases maxHit_eq_or a x with he | he <;> rw [he]
          · exact List.mem_cons_self _ _
          · exact List.mem_cons_of_mem _ hxm
        · rcases maxHit_eq_or a x with he | he <;> rw [he]
          · exact ha
          · exact hxd
        · intro h' hm hd'
          rcases List.mem_cons.mp hm with rfl | hm
          · exact hitKey_le_maxHit_left _ _
          · exact le_trans (hxmax h' hm hd') (hitKey_le_maxHit_right a x)
    · simp only [bestStep, ha, if_neg ha] at hb
      obtain ⟨hm, hd0, hmax⟩ := ih hb
      refine ⟨List.mem_cons_of_mem _ hm, hd0, ?_⟩
      intro h' hm' hd'
      rcases List.mem_cons.mp hm' with rfl | hm'
      · exact absurd hd' ha
      · exact hmax h' hm' hd'

theorem mem_docIds_filterMap {l : List MatchHit} {ds : List ℕ} {n : ℕ}
    (hm : n ∈ (ds.filterMap (bestFor l)).map (fun h => h.documentId)) :
    n ∈ ds := by
  simp only [List.mem_map, List.mem_filterMap] at hm
  obtain ⟨h, ⟨d, hd, hbf⟩, rfl⟩ := hm
  rw [(bestFor_spec hbf).2.1]
  exact hd

theorem nodup_docIds_filterMap {l : List MatchHit} {ds : List ℕ}
    (hnd : ds.Nodup) :
    ((ds.filterMap (bestFor l)).map (fun h => h.documentId)).Nodup := by
  induction ds with
  | nil => simp
  | cons d ds ih =>
    obtain ⟨hd, hnd'⟩ := List.nodup_cons.mp hnd
    simp only [List.filterMap_cons]
    rcases hb : bestFor l d with _ | h
    · exact ih hnd'
    · simp only [List.map_cons, List.nodup_cons]
      refine ⟨fun hmem => ?_, ih hnd'⟩
      have hin := mem_docIds_filterMap hmem
      rw [(bestFor_spec hb).2.1] at hin
      exact hd hin

theorem nodup_docIds_dedupedHits (l : List MatchHit) :
    ((dedupedHits l).map (fun h => h.documentId)).Nodup :=
  nodup_docIds_filterMap (List.nodup_range _)

theorem nodup_docIds_mergeResults (l : List MatchHit) :
    ((mergeResults l).map (fun h => h.documentId)).Nodup :=
  (((List.perm_insertionSort mergeLe (dedupedHits l)).map
      (fun h => h.documentId)).nodup_iff).mpr (nodup_docIds_dedupedHits l)

theorem mem_mergeResults {l : List MatchHit} {h : MatchHit}
    (hm : h ∈ mergeResults l) : ∃ d, bestFor l d = some h := by
  rw [mergeResults, List.mem_insertionSort] at hm
  simp only [dedupedHits, List.mem_filterMap] at hm
  obtain ⟨d, _, hb⟩ := hm
  exact ⟨d, hb⟩

theorem rawScore_le_of_hitKey_le {h₁ h₂ : MatchHit}
    (h : hitKey h₁ ≤ hitKey h₂) : h₁.rawScore ≤ h₂.rawScore := by
  rw [hitKey, hitKey, Prod.Lex.le_iff] at h
  rcases h with h | ⟨he, _⟩
  · exact le_of_lt h
  · exact le_of_eq he

theorem sorted_mergeResults (l : List MatchHit) :
    List.Sorted mergeLe (mergeResults l) :=
  List.sorted_insertionSort mergeLe (dedupedHits l)

theorem mergeLe_strict_of_ne {h₁ h₂ : MatchHit} (hle : mergeLe h₁ h₂)
    (hne : h₁.documentId ≠ h₂.documentId) :
    h₂.rawScore < h₁.rawScore ∨
      (h₁.rawScore = h₂.rawScore ∧ h₁.sourceStrategy = .exactIdentifier ∧
        h₂.sourceStrategy = .fuzzyText) ∨
      (h₁.rawScore = h₂.rawScore ∧ h₁.sourceStrategy = h₂.sourceStrategy ∧
        h₁.documentId < h₂.documentId) := by
  rw [mergeLe, mergeKey, mergeKey, Prod.Lex.le_iff] at hle
  rcases hle with hlt | ⟨heq, hrest⟩
  · left
    exact neg_lt_neg_iff.mp hlt
  · have hs : h₁.rawScore = h₂.rawScore := neg_inj.mp heq
    rw [Prod.Lex.le_iff] at hrest
    rcases hrest with hlt | ⟨heq2, hle2⟩
    · right
      left
      refine ⟨hs, ?_⟩
      cases hs₁ : h₁.sourceStrategy <;> cases hs₂ : h₂.sourceStrategy <;>
        simp_all [sortStratRank]
    · right
      right
      have hstrat : h₁.sourceStrategy = h₂.sourceStrategy := by
        cases hs₁ : h₁.sourceStrategy <;> cases hs₂ : h₂.sourceStrategy <;>
          simp_all [sortStratRank]
      exact ⟨hs, hstrat, lt_of_le_of_ne hle2 hne⟩


/-- C2: In every SearchResponse produced by merge, each documentId
appears at most once, the results sequence is strictly ordered by
rawScore descending, then ExactIdentifier before FuzzyText, then
documentId ascending, and the retained score of a document is the
maximum over all contributing hits (not a sum). -/
theorem c2_merge_results_invariants (hits : List MatchHit)
    (planIds : List CanonicalIdentifier) (echo : Str) :
    ((merge hits planIds echo).results.map (fun h => h.documentId)).Nodup ∧
    ((merge hits planIds echo).results.Pairwise (fun h₁ h₂ =>
      h₂.rawScore < h₁.rawScore ∨
      (h₁.rawScore = h₂.rawScore ∧ h₁.sourceStrategy = .exactIdentifier ∧
        h₂.sourceStrategy = .fuzzyText) ∨
      (h₁.rawScore = h₂.rawScore ∧ h₁.sourceStrategy = h₂.sourceStrategy ∧
        h₁.documentId < h₂.documentId))) ∧
    (∀ h ∈ (merge hits planIds echo).results, h ∈ hits ∧
      ∀ h' ∈ hits, h'.documentId = h.documentId →
        h'.rawScore ≤ h.rawScore) := by
  refine ⟨nodup_docIds_mergeResults hits, ?_, ?_⟩
  · have hsorted : (mergeResults hits).Pairwise mergeLe := sorted_mergeResults hits
    have hnd : (mergeResults hits).Pairwise
        (fun h₁ h₂ => h₁.documentId ≠ h₂.documentId) := by
      have hn := nodup_docIds_mergeResults hits
      rw [List.Nodup, List.pairwise_map] at hn
      exact hn
    exact (hsorted.and hnd).imp (fun hab => mergeLe_strict_of_ne hab.1 hab.2)
  · intro h hm
    obtain ⟨d, hb⟩ := mem_mergeResults (show h ∈ mergeResults hits from hm)
    obtain ⟨hmem, hd, hmax⟩ := bestFor_spec hb
    refine ⟨hmem, fun h' hm' hd' => ?_⟩
    exact rawScore_le_of_hitKey_le (hmax h' hm' (hd'.trans hd))

/-- Witness for C2: two hits for document 3 (fuzzy score 0, exact
score 1) merge to a duplicate-free result keeping the maximal score. -/
theorem c2_merge_results_invariants_witness :
    ((merge [⟨3, [], none, 0, .fuzzyText, [], .low⟩,
             ⟨3, [], none, 1, .exactIdentifier, [], .high⟩] [] []).results.map
        (fun h => h.documentId)).Nodup ∧
    ((⟨3, [], none, 1, .exactIdentifier, [], .high⟩ : MatchHit) ∈
        ([⟨3, [], none, 0, .fuzzyText, [], .low⟩,
          ⟨3, [], none, 1, .exactIdentifier, [], .high⟩] : List MatchHit) ∧
      ∀ h' ∈ ([⟨3, [], none, 0, .fuzzyText, [], .low⟩,
               ⟨3, [], none, 1, .exactIdentifier, [], .high⟩] : List MatchHit),
        h'.documentId =
            (⟨3, [], none, 1, .exactIdentifier, [], .high⟩ : MatchHit).documentId →
          h'.rawScore ≤
            (⟨3, [], none, 1, .exactIdentifier, [], .high⟩ : MatchHit).rawScore) := by
  have h := c2_merge_results_invariants
    [⟨3, [], none, 0, .fuzzyText, [], .low⟩,
     ⟨3, [], none, 1, .exactIdentifier, [], .high⟩] [] []
  exact ⟨h.1, h.2.2 ⟨3, [], none, 1, .exactIdentifier, [], .high⟩ (by decide)⟩

/-- C3: merge is a pure, total, order-independent function: for every
permutation of the input hit sequence it returns the same
SearchResponse. -/
theorem c3_merge_order_independent (hits₁ hits₂ : List MatchHit)
    (planIds : List CanonicalIdentifier) (echo : Str)
    (p : hits₁.Perm hits₂) :
    merge hits₁ planIds echo = merge hits₂ planIds echo := by
  unfold merge mergeResults
  rw [dedupedHits_perm p, collectIdentifiers_perm p]

/-- Witness for C3: swapping two concrete hits does not change the
merged SearchResponse. -/
theorem c3_merge_order_independent_witness :
    merge [⟨1, [], none, 0, .fuzzyText, [], .low⟩,
           ⟨2, [], none, 1, .exactIdentifier, [], .high⟩] [] [] =
      merge [⟨2, [], none, 1, .exactIdentifier, [], .high⟩,
             ⟨1, [], none, 0, .fuzzyText, [], .low⟩] [] [] :=
  c3_merge_order_independent _ _ [] [] (List.Perm.swap _ _ _)


/-! ### Lemmas: trimming and the search bar -/

theorem head?_dropWhile_not {p : Char → Bool} {l : Str} {c : Char}
    (h : (l.dropWhile p).head? = some c) : p c = false := by
  induction l with
  | nil => simp [List.dropWhile] at h
  | cons a l ih =>
    by_cases ha : p a
    · rw [List.dropWhile_cons_of_pos ha] at h
      exact ih h
    · rw [List.dropWhile_cons_of_neg (by simpa using ha)] at h
      simp only [List.head?_cons, Option.some.injEq] at h
      subst h
      exact Bool.eq_false_iff.mpr ha

theorem getLast?_dropWhile {p : Char → Bool} {l : Str}
    (h : l.dropWhile p ≠ []) : (l.dropWhile p).getLast? = l.getLast? := by
  induction l with
  | nil => simp at h
  | cons a l ih =>
    by_cases ha : p a
    · rw [List.dropWhile_cons_of_pos ha] at h ⊢
      rw [ih h]
      cases l with
      | nil => simp [List.dropWhile] at h
      | cons b l => simp
    · rw [List.dropWhile_cons_of_neg (by simpa using ha)]

theorem jsTrim_head_not_ws {s : Str} {c : Char}
    (h : (jsTrim s).head? = some c) : wsChar c = false := by
  rw [jsTrim, List.head?_reverse] at h
  have hne : ((s.dropWhile wsChar).reverse.dropWhile wsChar) ≠ [] := by
    intro hnil
    rw [hnil] at h
    simp at h
  rw [getLast?_dropWhile hne, List.getLast?_reverse] at h
  exact head?_dropWhile_not h

theorem jsTrim_getLast_not_ws {s : Str} {c : Char}
    (h : (jsTrim s).getLast? = some c) : wsChar c = false := by
  rw [jsTrim, List.getLast?_reverse] at h
  exact head?_dropWhile_not h

theorem jsTrim_eq_nil_iff {s : Str} : jsTrim s = [] ↔ ∀ c ∈ s, wsChar c := by
  constructor
  · intro h
    rw [jsTrim, List.reverse_eq_nil_iff, List.dropWhile_eq_nil_iff] at h
    have hall : ∀ c ∈ s.dropWhile wsChar, wsChar c := by
      intro c hc
      exact h c (List.mem_reverse.mpr hc)
    rcases he : s.dropWhile wsChar with _ | ⟨a, t⟩
    · exact List.dropWhile_eq_nil_iff.mp he
    · have hfalse := head?_dropWhile_not (l := s) (c := a) (by rw [he]; rfl)
      have htrue := hall a (by rw [he]; exact List.mem_cons_self _ _)
      rw [hfalse] at htrue
      cases htrue
  · intro h
    rw [jsTrim, List.dropWhile_eq_nil_iff.mpr h]
    rfl

/-- C10: the search bar submits a search only when the input contains
a non-whitespace character, the submitted query is the trimmed string
with no leading or trailing whitespace, and a whitespace-only
submission triggers no search and leaves the component state
unchanged. -/
theorem c10_search_bar_trims_and_gates (q : Str) :
    (handleSearch q = none ↔ ∀ c ∈ q, wsChar c) ∧
    (∀ s, handleSearch q = some s →
      s = jsTrim q ∧ s ≠ [] ∧
      (∀ c, s.head? = some c → wsChar c = false) ∧
      (∀ c, s.getLast? = some c → wsChar c = false)) := by
  constructor
  · rw [handleSearch]
    by_cases he : (jsTrim q).isEmpty
    · rw [if_pos he]
      simp only [eq_self_iff_true, true_iff]
      exact jsTrim_eq_nil_iff.mp (List.isEmpty_iff.mp he)
    · rw [if_neg he]
      constructor
      · intro hsome
        cases hsome
      · intro hall
        exact absurd (List.isEmpty_iff.mpr (jsTrim_eq_nil_iff.mpr hall)) he
  · intro s hs
    rw [handleSearch] at hs
    by_cases he : (jsTrim q).isEmpty
    · rw [if_pos he] at hs
      cases hs
    · rw [if_neg he] at hs
      injection hs with hs
      subst hs
      refine ⟨rfl, fun hnil => he ?_, fun c hc => jsTrim_head_not_ws hc,
        fun c hc => jsTrim_getLast_not_ws hc⟩
      rw [hnil]
      rfl

/-- Witness for C10 at the input with surrounding blanks: BMW with
spaces submits the three-letter trimmed query. -/
theorem c10_search_bar_trims_and_gates_witness :
    handleSearch [' ', 'B', 'M', 'W', ' '] = some ['B', 'M', 'W'] ∧
    (['B', 'M', 'W'] : Str) = jsTrim [' ', 'B', 'M', 'W', ' '] ∧
    (['B', 'M', 'W'] : Str) ≠ [] ∧
    (∀ c, (['B', 'M', 'W'] : Str).head? = some c → wsChar c = false) ∧
    (∀ c, (['B', 'M', 'W'] : Str).getLast? = some c → wsChar c = false) := by
  have h := (c10_search_bar_trims_and_gates [' ', 'B', 'M', 'W', ' ']).2
    ['B', 'M', 'W'] (by decide)
  exact ⟨by decide, h⟩


/-! ### Lemmas: orchestrator on the empty backend -/

theorem flatMap_getD_map_const_nil {α : Type} (l : List α) :
    ((l.map (fun _ => (some ([] : List MatchHit)))).flatMap
      (fun r => r.getD [])) = [] := by
  induction l with
  | nil => rfl
  | cons a l ih => simp [ih]

theorem mergeResults_nil : mergeResults [] = [] := rfl

theorem execute_plan_emptyBackend (raw : Str)
    (cs : List CanonicalIdentifier) (cap : ℕ) :
    execute (plan raw cs) cap emptyBackend = .ok [] := by
  cases cs with
  | nil => simp [plan, execute, callResults, fuzzyCall, emptyBackend]
  | cons c cs =>
    have hcall : ∀ ci, exactCall emptyBackend cap ci = some [] := by
      intro ci
      simp [exactCall, emptyBackend]
    simp only [plan, execute, callResults]
    rw [List.map_congr_left (fun ci _ => hcall ci)]
    rw [if_neg (by simp)]
    rw [flatMap_getD_map_const_nil]

/-- C4: a request that yields zero results is not an error — the
frontend renders the distinct empty state, and the engine returns a
successful response with an empty result list — while a failed request
renders the error view, which is distinguishable from the empty
state. -/
theorem c4_zero_results_is_not_an_error :
    (∀ (detail : Str) (results : List SearchResult),
      renderSearchResults false (some detail) results =
        SearchView.errorView detail) ∧
    (renderSearchResults false none [] = SearchView.emptyView) ∧
    (∀ detail : Str, SearchView.errorView detail ≠ SearchView.emptyView) ∧
    (∀ (cfg : EngineConfig) (raw : Str), raw.length ≤ cfg.maxQueryLength →
      ∃ resp, search cfg emptyBackend raw = Except.ok resp ∧
        resp.results = []) := by
  refine ⟨fun detail results => rfl, rfl, fun detail h => ?_, ?_⟩
  · cases h
  · intro cfg raw hlen
    refine ⟨merge [] (canonicalsOf raw) raw, ?_, ?_⟩
    · rw [search, if_neg (not_lt.mpr hlen), searchCore]
      rw [execute_plan_emptyBackend raw (canonicalsOf raw) cfg.resultCap]
    · exact mergeResults_nil

/-- Witness for C4: a one-character query against a backend with no
documents produces a successful response with zero results. -/
theorem c4_zero_results_is_not_an_error_witness :
    (['x'] : Str).length ≤ defaultConfig.maxQueryLength ∧
    ∃ resp, search defaultConfig emptyBackend ['x'] = Except.ok resp ∧
      resp.results = [] :=
  ⟨by decide,
    (c4_zero_results_is_not_an_error.2.2.2 defaultConfig ['x'] (by decide))⟩


theorem search_ok_eq {cfg : EngineConfig} {be : Backend} {raw : Str}
    {resp : SearchResponse} (hok : search cfg be raw = .ok resp) :
    ∃ hits, execute (plan raw (canonicalsOf raw)) cfg.resultCap be = .ok hits ∧
      resp = merge hits (canonicalsOf raw) raw := by
  rw [search] at hok
  by_cases hlen : cfg.maxQueryLength < raw.length
  · rw [if_pos hlen] at hok
    cases hok
  · rw [if_neg hlen] at hok
    simp only [searchCore] at hok
    rcases hex : execute (plan raw (canonicalsOf raw)) cfg.resultCap be
      with e | hits
    · rw [hex] at hok
      cases hok
    · rw [hex] at hok
      injection hok with h
      exact ⟨hits, rfl, h.symm⟩

/-- C5: every successful search response echoes the exact raw query
string in queryEcho and contains every canonical identifier recognized
in the query in identifiersRecognized, alongside the deduplicated
results. -/
theorem c5_search_response_contents (cfg : EngineConfig) (be : Backend)
    (raw : Str) (resp : SearchResponse)
    (hok : search cfg be raw = .ok resp) :
    resp.queryEcho = raw ∧
    (∀ ci ∈ canonicalsOf raw, ci ∈ resp.identifiersRecognized) ∧
    (resp.results.map (fun h => h.documentId)).Nodup := by
  obtain ⟨hits, _, rfl⟩ := search_ok_eq hok
  refine ⟨rfl, ?_, nodup_docIds_mergeResults hits⟩
  intro ci hci
  show ci ∈ sortIdentifiers
    (canonicalsOf raw ++ hits.flatMap fun h => h.identifiersFound)
  rw [sortIdentifiers, List.mem_insertionSort, List.mem_dedup]
  exact List.mem_append_left _ hci

/-- Witness for C5: the query bmw against the empty backend yields a
response echoing the query with no identifiers and no duplicate
results. -/
theorem c5_search_response_contents_witness :
    search defaultConfig emptyBackend ['b', 'm', 'w'] =
        Except.ok ⟨[], [], ['b', 'm', 'w']⟩ ∧
    (⟨[], [], ['b', 'm', 'w']⟩ : SearchResponse).queryEcho = ['b', 'm', 'w'] ∧
    (∀ ci ∈ canonicalsOf ['b', 'm', 'w'],
      ci ∈ (⟨[], [], ['b', 'm', 'w']⟩ : SearchResponse).identifiersRecognized) ∧
    ((⟨[], [], ['b', 'm', 'w']⟩ : SearchResponse).results.map
      (fun h => h.documentId)).Nodup := by
  have hok : search defaultConfig emptyBackend ['b', 'm', 'w'] =
      Except.ok ⟨[], [], ['b', 'm', 'w']⟩ := by rfl
  exact ⟨hok, c5_search_response_contents _ _ _ _ hok⟩


/-! ### Lemmas: per-call caps and failure taxonomy -/

theorem exactCall_bound {be : Backend} {cap : ℕ} {ci : CanonicalIdentifier}
    {l : List MatchHit} (h : exactCall be cap ci = some l) :
    l.length ≤ cap := by
  rw [exactCall] at h
  cases hb : be.exactLookup ci with
  | none =>
    rw [hb] at h
    cases h
  | some ds =>
    rw [hb] at h
    simp only [Option.map_some', Option.some.injEq] at h
    rw [← h, List.length_map, List.length_take]
    exact min_le_left _ _

theorem fuzzyCall_bound {be : Backend} {cap : ℕ} {t : Str}
    {l : List MatchHit} (h : fuzzyCall be cap t = some l) :
    l.length ≤ cap := by
  rw [fuzzyCall] at h
  cases hb : be.fuzzySearch t cap with
  | none =>
    rw [hb] at h
    cases h
  | some ds =>
    rw [hb] at h
    simp only [Option.map_some', Option.some.injEq] at h
    rw [← h, List.length_map, List.length_take]
    exact min_le_left _ _

theorem callResults_bound {qp : QueryPlan} {cap : ℕ} {be : Backend} :
    ∀ r ∈ callResults qp cap be, ∀ l, r = some l → l.length ≤ cap := by
  intro r hr l hl
  subst hl
  obtain ⟨k, terms, ft⟩ := qp
  cases k <;> simp only [callResults] at hr
  · obtain ⟨ci, _, hci⟩ := List.mem_map.mp hr
    exact exactCall_bound hci
  · rw [List.mem_singleton] at hr
    exact fuzzyCall_bound hr.symm
  · rcases List.mem_append.mp hr with hm | hm
    · obtain ⟨ci, _, hci⟩ := List.mem_map.mp hm
      exact exactCall_bound hci
    · rw [List.mem_singleton] at hm
      exact fuzzyCall_bound hm.symm

theorem length_callResults (qp : QueryPlan) (cap : ℕ) (be : Backend) :
    (callResults qp cap be).length = subQueryCount qp := by
  obtain ⟨k, terms, ft⟩ := qp
  cases k <;> simp [callResults, subQueryCount]

theorem flatMap_getD_length_le (rs : List (Option (List MatchHit))) (cap : ℕ)
    (h : ∀ r ∈ rs, ∀ l, r = some l → l.length ≤ cap) :
    (rs.flatMap (fun r => r.getD [])).length ≤ cap * rs.length := by
  induction rs with
  | nil => simp
  | cons r rs ih =>
    simp only [List.flatMap_cons, List.length_append, List.length_cons]
    have h1 : (r.getD []).length ≤ cap := by
      cases r with
      | none => simp
      | some l => exact h _ (List.mem_cons_self _ _) l rfl
    have h2 := ih (fun r hr l hl => h r (List.mem_cons_of_mem _ hr) l hl)
    calc (r.getD []).length + (rs.flatMap (fun r => r.getD [])).length ≤
        cap + cap * rs.length := Nat.add_le_add h1 h2
      _ = cap * (rs.length + 1) := by ring

theorem execute_ok_hits {qp : QueryPlan} {cap : ℕ} {be : Backend}
    {hits : List MatchHit} (h : execute qp cap be = .ok hits) :
    hits = (callResults qp cap be).flatMap (fun r => r.getD []) := by
  simp only [execute] at h
  split at h
  · cases h
  · injection h with h
    exact h.symm

/-- C7: every sub-query carries a per-call result cap whose default is
50 (both the frontend searchDocuments default and the engine default);
each backend call contributes at most cap hits and the orchestrator
aggregates at most cap times the number of sub-queries. -/
theorem c7_per_call_result_cap (qp : QueryPlan) (cap : ℕ) (be : Backend)
    (hits : List MatchHit) (hok : execute qp cap be = .ok hits) :
    searchDocumentsLimit none = 50 ∧
    defaultConfig.resultCap = 50 ∧
    (∀ r ∈ callResults qp cap be, ∀ l, r = some l → l.length ≤ cap) ∧
    hits.length ≤ cap * subQueryCount qp := by
  refine ⟨rfl, rfl, callResults_bound, ?_⟩
  rw [execute_ok_hits hok, ← length_callResults qp cap be]
  exact flatMap_getD_length_le _ cap callResults_bound

/-- Witness for C7 at a concrete free-text plan executed with cap 50
against the empty backend. -/
theorem c7_per_call_result_cap_witness :
    execute ⟨.freeTextOnly, [], some ['b']⟩ 50 emptyBackend = .ok [] ∧
    searchDocumentsLimit none = 50 ∧
    defaultConfig.resultCap = 50 ∧
    ([] : List MatchHit).length ≤ 50 * subQueryCount ⟨.freeTextOnly, [], some ['b']⟩ := by
  have hok : execute ⟨.freeTextOnly, [], some ['b']⟩ 50 emptyBackend = .ok [] := by rfl
  have h := c7_per_call_result_cap ⟨.freeTextOnly, [], some ['b']⟩ 50 emptyBackend [] hok
  exact ⟨hok, h.1, h.2.1, h.2.2.2⟩


theorem execute_error_eq {qp : QueryPlan} {cap : ℕ} {be : Backend}
    {e : SearchFailure} (h : execute qp cap be = .error e) :
    e = .searchBackendUnavailable := by
  simp only [execute] at h
  split at h
  · injection h with h
    exact h.symm
  · cases h

/-- C8: a raw input longer than the configured maximum (default 500)
is rejected with QueryTooLong before recognition runs, independent of
the backend; an input within the bound proceeds through the normal
pipeline, which never reports QueryTooLong. -/
theorem c8_query_length_bound (cfg : EngineConfig) (be : Backend) (raw : Str) :
    (cfg.maxQueryLength < raw.length →
      search cfg be raw = .error .queryTooLong) ∧
    (raw.length ≤ cfg.maxQueryLength →
      search cfg be raw = searchCore cfg be raw) ∧
    (∀ e, searchCore cfg be raw = .error e → e = .searchBackendUnavailable) ∧
    defaultConfig.maxQueryLength = 500 := by
  refine ⟨fun h => ?_, fun h => ?_, fun e he => ?_, rfl⟩
  · rw [search, if_pos h]
  · rw [search, if_neg (not_lt.mpr h)]
  · simp only [searchCore] at he
    rcases hex : execute (plan raw (canonicalsOf raw)) cfg.resultCap be
      with e2 | hits
    · rw [hex] at he
      injection he with he
      exact he ▸ execute_error_eq hex
    · rw [hex] at he
      cases he

/-- Witness for C8: a 501-character input is rejected with
QueryTooLong under the default configuration while a one-character
input proceeds normally. -/
theorem c8_query_length_bound_witness :
    (defaultConfig.maxQueryLength < (List.replicate 501 'x').length ∧
      search defaultConfig emptyBackend (List.replicate 501 'x') =
        .error .queryTooLong) ∧
    ((['b'] : Str).length ≤ defaultConfig.maxQueryLength ∧
      search defaultConfig emptyBackend ['b'] =
        searchCore defaultConfig emptyBackend ['b']) := by
  have h1 := (c8_query_length_bound defaultConfig emptyBackend
    (List.replicate 501 'x')).1
    (by rw [List.length_replicate]; exact Nat.lt_succ_self 500)
  have h2 := (c8_query_length_bound defaultConfig emptyBackend ['b']).2.1
    (by decide)
  exact ⟨⟨by rw [List.length_replicate]; exact Nat.lt_succ_self 500, h1⟩,
    ⟨by decide, h2⟩⟩


theorem mem_exactCall {be : Backend} {cap : ℕ} {ci : CanonicalIdentifier}
    {r : Option (List MatchHit)} {h : MatchHit}
    (hr : exactCall be cap ci = r) (hh : h ∈ r.getD []) :
    h.sourceStrategy = .exactIdentifier ∧ h.rawScore = 1 := by
  subst hr
  rw [exactCall] at hh
  cases hb : be.exactLookup ci with
  | none =>
    rw [hb] at hh
    cases hh
  | some ds =>
    rw [hb] at hh
    simp only [Option.map_some', Option.getD_some, List.mem_map] at hh
    obtain ⟨doc, _, rfl⟩ := hh
    exact ⟨rfl, rfl⟩

theorem mem_fuzzyCall {be : Backend} {cap : ℕ} {t : Str}
    {r : Option (List MatchHit)} {h : MatchHit}
    (hr : fuzzyCall be cap t = r) (hh : h ∈ r.getD []) :
    ∃ ds, be.fuzzySearch t cap = some ds ∧
      ∃ d ∈ ds, h = toFuzzyHit d := by
  subst hr
  rw [fuzzyCall] at hh
  cases hb : be.fuzzySearch t cap with
  | none =>
    rw [hb] at hh
    cases hh
  | some ds =>
    rw [hb] at hh
    simp only [Option.map_some', Option.getD_some, List.mem_map] at hh
    obtain ⟨d, hd, rfl⟩ := hh
    exact ⟨ds, rfl, d, List.mem_of_mem_take hd, rfl⟩

theorem mem_execute_cases {qp : QueryPlan} {cap : ℕ} {be : Backend}
    {hits : List MatchHit} {h : MatchHit}
    (hok : execute qp cap be = .ok hits) (hm : h ∈ hits) :
    (h.sourceStrategy = .exactIdentifier ∧ h.rawScore = 1) ∨
    (h.sourceStrategy = .fuzzyText ∧
      ∃ ds, be.fuzzySearch (qp.freeTextTerm.getD []) cap = some ds ∧
        ∃ d ∈ ds, h.rawScore = d.score) := by
  rw [execute_ok_hits hok] at hm
  obtain ⟨r, hr, hh⟩ := List.mem_flatMap.mp hm
  obtain ⟨k, terms, ft⟩ := qp
  cases k <;> simp only [callResults] at hr
  · obtain ⟨ci, _, hci⟩ := List.mem_map.mp hr
    exact Or.inl (mem_exactCall hci hh)
  · rw [List.mem_singleton] at hr
    obtain ⟨ds, hds, d, hd, rfl⟩ := mem_fuzzyCall hr.symm hh
    exact Or.inr ⟨rfl, ds, hds, d, hd, rfl⟩
  · rcases List.mem_append.mp hr with hm2 | hm2
    · obtain ⟨ci, _, hci⟩ := List.mem_map.mp hm2
      exact Or.inl (mem_exactCall hci hh)
    · rw [List.mem_singleton] at hm2
      obtain ⟨ds, hds, d, hd, rfl⟩ := mem_fuzzyCall hm2.symm hh
      exact Or.inr ⟨rfl, ds, hds, d, hd, rfl⟩

theorem identifierOnly_hits_exact {qp : QueryPlan} {cap : ℕ} {be : Backend}
    {hits : List MatchHit} {h : MatchHit}
    (hok : execute qp cap be = .ok hits) (hm : h ∈ hits)
    (hk : qp.kind = .identifierOnly) :
    h.sourceStrategy = .exactIdentifier ∧ h.rawScore = 1 := by
  rw [execute_ok_hits hok] at hm
  obtain ⟨r, hr, hh⟩ := List.mem_flatMap.mp hm
  obtain ⟨k, terms, ft⟩ := qp
  cases hk
  simp only [callResults] at hr
  obtain ⟨ci, _, hci⟩ := List.mem_map.mp hr
  exact mem_exactCall hci hh

/-- C9: every MatchHit produced by the orchestrator has rawScore in
the interval [0,1] (given the §6 backend contract on fuzzy scores), and
every hit produced via exactLookup is tagged ExactIdentifier with
rawScore = 1; in an IdentifierOnly plan all hits are such. -/
theorem c9_hit_scores (qp : QueryPlan) (cap : ℕ) (be : Backend)
    (hits : List MatchHit) (hok : execute qp cap be = .ok hits)
    (hbe : ∀ t k l, be.fuzzySearch t k = some l →
      ∀ d ∈ l, 0 ≤ d.score ∧ d.score ≤ 1) :
    (∀ h ∈ hits, 0 ≤ h.rawScore ∧ h.rawScore ≤ 1) ∧
    (∀ h ∈ hits, h.sourceStrategy = .exactIdentifier → h.rawScore = 1) ∧
    (qp.kind = .identifierOnly → ∀ h ∈ hits,
      h.sourceStrategy = .exactIdentifier ∧ h.rawScore = 1) := by
  refine ⟨fun h hm => ?_, fun h hm hs => ?_, fun hk h hm =>
    identifierOnly_hits_exact hok hm hk⟩
  · rcases mem_execute_cases hok hm with ⟨_, hsc⟩ | ⟨_, ds, hds, d, hd, hsc⟩
    · rw [hsc]
      exact ⟨zero_le_one, le_refl 1⟩
    · rw [hsc]
      exact hbe _ _ _ hds d hd
  · rcases mem_execute_cases hok hm with ⟨_, hsc⟩ | ⟨hfz, _⟩
    · exact hsc
    · rw [hs] at hfz
      cases hfz

/-- Witness for C9 at a concrete IdentifierOnly plan executed against
the empty backend. -/
theorem c9_hit_scores_witness :
    execute ⟨.identifierOnly, [⟨['1'], ['2'], ['3'], ['4']⟩], none⟩ 50
        emptyBackend = .ok [] ∧
    (∀ h ∈ ([] : List MatchHit), 0 ≤ h.rawScore ∧ h.rawScore ≤ 1) ∧
    (QueryPlan.kind ⟨.identifierOnly, [⟨['1'], ['2'], ['3'], ['4']⟩], none⟩ =
        .identifierOnly → ∀ h ∈ ([] : List MatchHit),
      h.sourceStrategy = .exactIdentifier ∧ h.rawScore = 1) := by
  have hok : execute ⟨.identifierOnly, [⟨['1'], ['2'], ['3'], ['4']⟩], none⟩ 50
      emptyBackend = .ok [] := by rfl
  have hbe : ∀ t k l, emptyBackend.fuzzySearch t k = some l →
      ∀ d ∈ l, 0 ≤ d.score ∧ d.score ≤ 1 := by
    intro t k l hl d hd
    simp only [emptyBackend] at hl
    injection hl with hl
    rw [← hl] at hd
    cases hd
  have h := c9_hit_scores _ 50 emptyBackend [] hok hbe
  exact ⟨hok, h.1, h.2.2⟩


/-! ### Lemmas: suggestion generation -/

theorem dedupCI_spec (l : List Str) : ∀ seen : List Str,
    (∀ s ∈ dedupCI seen l, lowerStr s ∉ seen) ∧
    (dedupCI seen l).Pairwise (fun a b => lowerStr a ≠ lowerStr b) := by
  induction l with
  | nil => intro seen; simp [dedupCI]
  | cons s rest ih =>
    intro seen
    by_cases hs : lowerStr s ∈ seen
    · simp only [dedupCI, if_pos hs]
      exact ih seen
    · simp only [dedupCI, if_neg hs]
      obtain ⟨hmem, hpw⟩ := ih (lowerStr s :: seen)
      refine ⟨?_, ?_⟩
      · intro x hx
        rcases List.mem_cons.mp hx with rfl | hx
        · exact hs
        · exact fun hxs => hmem x hx (List.mem_cons_of_mem _ hxs)
      · rw [List.pairwise_cons]
        refine ⟨fun b hb heq => ?_, hpw⟩
        exact hmem b hb (heq ▸ List.mem_cons_self _ _)

/-- C6: suggestions are active only for prefixes of at least 2
characters (the frontend gate issues no request below that and the
generator returns nothing), the suggestion list is truncated to the
limit whose frontend default is 10, and exact duplicates are removed
case-insensitively. -/
theorem c6_suggestion_contract (be : Backend) (q : Str) (limit : ℕ) :
    (q.length < 2 → suggestionsEnabled q = false ∧ suggest be q limit = []) ∧
    (suggest be q limit).length ≤ limit ∧
    (suggest be q limit).Pairwise (fun a b => lowerStr a ≠ lowerStr b) ∧
    getSearchSuggestionsLimit none = 10 := by
  refine ⟨fun h => ⟨?_, ?_⟩, ?_, ?_, rfl⟩
  · simp only [suggestionsEnabled, decide_eq_false_iff_not, not_le]
    exact h
  · rw [suggest, if_pos h]
  · rw [suggest]
    split
    · simp
    · exact List.length_take_le _ _
  · rw [suggest]
    split
    · exact List.Pairwise.nil
    · exact ((dedupCI_spec _ []).2).sublist (List.take_sublist _ _)

/-- Witness for C6 at the one-character prefix b: no request is
enabled and no suggestions are produced. -/
theorem c6_suggestion_contract_witness :
    (['b'] : Str).length < 2 ∧
    suggestionsEnabled ['b'] = false ∧
    suggest emptyBackend ['b'] 10 = [] ∧
    getSearchSuggestionsLimit none = 10 := by
  have h := c6_suggestion_contract emptyBackend ['b'] 10
  obtain ⟨hg, _, _, hd⟩ := h
  obtain ⟨he, hn⟩ := hg (by decide)
  exact ⟨by decide, he, hn, hd⟩

end ABE
